import Mathlib

/-!
Shallow embedding of the funlisp core (moneytech/funlisp): the reader
(src/parse.c), the primitive operators with non-obvious semantics
(src/builtins.c) and the mark-and-sweep collector (src/gc.c), together
with theorems settling the specification claims about them.

Modelling conventions:
* a C `char*` input buffer is a `List Char`; reading at or past the end of
  the buffer yields the nul character, exactly as reading the terminator of
  a nul-terminated C string;
* C loops that walk the buffer are rendered as structural recursion over
  the remaining suffix of the buffer, carrying the absolute index along;
* fallible C functions that return `NULL` and record an `enum lisp_errno`
  on the runtime are rendered with an `Option LErrno` error field;
* recursive-descent recursion is bounded by an explicit fuel parameter
  (the C code recurses on the host stack); every claim is stated either
  for every sufficient fuel or at a concrete fuel large enough for the
  concrete input.
-/

/-- The error kinds of `enum lisp_errno` from the public header (the header
itself is not part of the sources; the constructor list follows the spec's
error-kind table, section 7).  `LE_SYNTAXERR` is the header's syntax error
constant and `LE_ERROR` is the generic error with numeric value 1, the
value used literally by `return_result_err(NULL, r.index, 1)` in parse.c. -/
inductive LErrno where
  | LE_ERROR
  | LE_EOF
  | LE_SYNTAXERR
  | LE_FERROR
  | LE_NOTFOUND
  | LE_TYPE
  | LE_2FEW
  | LE_2MANY
deriving DecidableEq, Repr

/-- Lisp values as trees: the payloads of section 3's value table that the
reader and the pure builtins manipulate (builtin/lambda/scope values never
appear in reader output and are abstracted where builtins need them). -/
inductive LVal where
  | nil
  | int (n : Int)
  | str (s : String)
  | sym (s : String)
  | cons (l r : LVal)
deriving DecidableEq, Repr

/-- The nul character terminating a C string. -/
def nulc : Char := Char.ofNat 0

/-- The single-quote character (written by code point to keep the source
free of quote-escape literals). -/
def squot : Char := Char.ofNat 39

/-- The backtick character. -/
def bquot : Char := Char.ofNat 96

/-- C `isspace` in the C locale: space, tab, newline, vertical tab, form
feed, carriage return. -/
def c_isspace (c : Char) : Bool :=
  c = ' ' || c = '\t' || c = '\n' || c = Char.ofNat 11 || c = Char.ofNat 12 || c = '\r'

/-- C `isdigit`. -/
def c_isdigit (c : Char) : Bool :=
  '0' ≤ c && c ≤ '9'

/-- Reading `input[i]`: the character at index `i`, or nul at or past the
end of the buffer (the terminator of the C string). -/
def charAt (input : List Char) (i : Nat) : Char :=
  input.getD i nulc

/-- Result record of the internal parsing functions, mirroring
`typedef struct { lisp_value *result; int index; enum lisp_errno error; }
result` in parse.c.  `res = none` mirrors a NULL result pointer and
`perr = none` mirrors error code 0. -/
structure PRes where
  res : Option LVal
  idx : Nat
  perr : Option LErrno
deriving DecidableEq, Repr

/-- Helper for `skip_space_and_comments`: one left-to-right scan over the
remaining buffer with a flag recording whether we are inside a `;` comment.
This renders the two nested loops of the C function: the outer loop
alternates a whitespace loop with a comment loop; consuming a comment up to
(and then, as whitespace, including) the newline is exactly consuming every
comment character until the newline switches the flag back. -/
def skip_sc_aux : List Char → Nat → Bool → Nat
  | [], i, _ => i
  | c :: rest, i, true =>
      if c = nulc then i
      else if c = '\n' then skip_sc_aux rest (i + 1) false
      else skip_sc_aux rest (i + 1) true
  | c :: rest, i, false =>
      if c = ';' then skip_sc_aux rest (i + 1) true
      else if c_isspace c then skip_sc_aux rest (i + 1) false
      else i

/-- `skip_space_and_comments` from parse.c. -/
def skip_space_and_comments (input : List Char) (index : Nat) : Nat :=
  skip_sc_aux (input.drop index) index false

/-- `lisp_escape` from parse.c.  Note `r` maps to backspace (8), which the
spec records as behaviour to preserve. -/
def lisp_escape (escape : Char) : Char :=
  if escape = 'a' then Char.ofNat 7
  else if escape = 'b' then Char.ofNat 8
  else if escape = 'f' then Char.ofNat 12
  else if escape = 'n' then Char.ofNat 10
  else if escape = 'r' then Char.ofNat 8
  else if escape = 't' then Char.ofNat 9
  else if escape = 'v' then Char.ofNat 11
  else escape

/-- The scanning loop of `lisp_parse_string`: collect characters (applying
escapes) until a closing quote, a nul, or the end of the buffer; return the
collected characters and the index at which the loop stopped.  A trailing
backslash consumes the terminator position as its escapee, as in the C
code's `input[++i]`. -/
def string_scan_aux : List Char → Nat → List Char × Nat
  | [], i => ([], i)
  | c :: rest, i =>
      if c = nulc then ([], i)
      else if c = '"' then ([], i)
      else if c = '\\' then
        match rest with
        | [] =>
            ([lisp_escape nulc], i + 2)
        | d :: rest' =>
            let p := string_scan_aux rest' (i + 2)
            (lisp_escape d :: p.1, p.2)
      else
        let p := string_scan_aux rest (i + 1)
        (c :: p.1, p.2)

/-- `lisp_parse_string` from parse.c.  When the loop stops on the nul
terminator (unterminated literal) the C code stores the message
"unexpected eof while parsing string" but returns the error code
`LE_SYNTAX`, not `LE_EOF`. -/
def lisp_parse_string (input : List Char) (index : Nat) : PRes :=
  let p := string_scan_aux (input.drop (index + 1)) (index + 1)
  if charAt input p.2 = nulc then
    ⟨none, p.2, some .LE_SYNTAXERR⟩
  else
    ⟨some (.str (String.mk p.1)), p.2 + 1, none⟩

/-- The `sscanf(input + index, "%d%n", ...)` call of `lisp_parse_integer`:
skip C whitespace, accept an optional sign, then one or more decimal
digits; return the parsed value and the number of characters consumed, or
`none` on matching failure. -/
def sscanf_d (input : List Char) (i : Nat) : Option (Int × Nat) :=
  let j := i + ((input.drop i).takeWhile (fun c => c_isspace c)).length
  let sk : Int × Nat :=
    if charAt input j = '-' then (-1, j + 1)
    else if charAt input j = '+' then (1, j + 1)
    else (1, j)
  let ds := (input.drop sk.2).takeWhile (fun c => c_isdigit c)
  if ds.isEmpty then none
  else
    some (sk.1 * (ds.foldl (fun acc c => acc * 10 + ((c.toNat : Int) - 48)) 0),
          sk.2 + ds.length - i)

/-- `lisp_parse_integer` from parse.c. -/
def lisp_parse_integer (input : List Char) (index : Nat) : PRes :=
  match sscanf_d input index with
  | none => ⟨none, index, some .LE_SYNTAXERR⟩
  | some vn => ⟨some (.int vn.1), index + vn.2, none⟩

/-- Terminator set of the symbol scanning loop in `lisp_parse_symbol`:
nul, whitespace, `)`, `'`, `;`.  (`.` is deliberately not a terminator; the
corresponding test is commented out in the C source.) -/
def sym_end (c : Char) : Bool :=
  c = nulc || c_isspace c || c = ')' || c = squot || c = ';'

/-- Modelled from the spec: `lisp_quote_with` (defined outside the given
sources) builds the two-element list `(q v)` used by quote sugar and dotted
symbols; section 4.2: quote sugar expands to `(quote x)` etc., and the
inserted quote of a dotted symbol is the regular quote form. -/
def lisp_quote_with (v : LVal) (q : String) : LVal :=
  .cons (.sym q) (.cons v .nil)

/-- One `(getattr PREV (quote tok))` node of `split_symbol`. -/
def getattr_node (prev : LVal) (tok : List Char) : LVal :=
  .cons (.sym "getattr")
    (.cons prev (.cons (lisp_quote_with (.sym (String.mk tok)) "quote") .nil))

/-- The loop of `split_symbol`: one iteration per remaining dot-count; all
but the last token run to the next `.` (the C code's `strchr`), the last
token takes everything that remains (the C code's `remain`). -/
def split_loop (prev : LVal) (cs : List Char) : Nat → LVal
  | 0 => prev
  | d + 1 =>
      let tok := if d > 0 then cs.takeWhile (fun c => c ≠ '.') else cs
      split_loop (getattr_node prev tok) (cs.drop (tok.length + 1)) d

/-- `split_symbol` from parse.c: `cs` is the token's characters and
`dotcount` the number of `.` characters it contains. -/
def split_symbol (cs : List Char) (dotcount : Nat) : LVal :=
  let first := cs.takeWhile (fun c => c ≠ '.')
  split_loop (.sym (String.mk first)) (cs.drop (first.length + 1)) dotcount

/-- `lisp_parse_symbol` from parse.c: scan the token, count the dots, and
either report eof (empty input), a syntax error (dot at the first or last
position), a dotted rewrite, or a plain symbol. -/
def lisp_parse_symbol (input : List Char) (index : Nat) : PRes :=
  let tok := (input.drop index).takeWhile (fun c => !sym_end c)
  let n := tok.length
  let dotcount := tok.count '.'
  if charAt input index = nulc then
    ⟨none, index, some .LE_EOF⟩
  else if dotcount > 0 then
    if charAt input index = '.' ∨ charAt input (index + n - 1) = '.' then
      ⟨none, index, some .LE_SYNTAXERR⟩
    else
      ⟨some (split_symbol tok dotcount), index + n, none⟩
  else
    ⟨some (.sym (String.mk tok)), index + n, none⟩

mutual

/-- `lisp_parse_value_internal` from parse.c: skip blanks and comments and
dispatch on the first character.  A token is handed to the integer parser
only when its first character is a decimal digit; everything else that is
not a string, list, quote sugar, nul or `)` (including a leading `-`) goes
to the symbol parser. -/
def lisp_parse_value_internal : Nat → List Char → Nat → PRes
  | 0, _, index => ⟨none, index, some .LE_ERROR⟩
  | fuel + 1, input, index =>
      let j := skip_space_and_comments input index
      if charAt input j = '"' then lisp_parse_string input j
      else if charAt input j = nulc then ⟨none, j, none⟩
      else if charAt input j = ')' then ⟨some .nil, j + 1, none⟩
      else if charAt input j = '(' then lisp_parse_list_or_sexp fuel input (j + 1)
      else if charAt input j = bquot ∨ charAt input j = ',' ∨ charAt input j = squot then
        lisp_parse_quote fuel input j
      else if c_isdigit (charAt input j) then lisp_parse_integer input j
      else lisp_parse_symbol input j
termination_by structural fuel => fuel

/-- `lisp_parse_quote` from parse.c: parse the quoted value and wrap it in
`quote`, `quasiquote` or `unquote` according to the sugar character. -/
def lisp_parse_quote : Nat → List Char → Nat → PRes
  | 0, _, index => ⟨none, index, some .LE_ERROR⟩
  | fuel + 1, input, index =>
      let r := lisp_parse_value_internal fuel input (index + 1)
      if r.perr.isSome then r
      else match r.res with
        | none => ⟨none, r.idx, some .LE_ERROR⟩
        | some v =>
            let qc := if charAt input index = squot then "quote"
                      else if charAt input index = bquot then "quasiquote"
                      else "unquote"
            ⟨some (lisp_quote_with v qc), r.idx, none⟩
termination_by structural fuel => fuel

/-- `lisp_parse_list_or_sexp` from parse.c up to its `while` loop: empty
input is an eof error, `)` closes as nil, otherwise parse the first element
and continue with the loop rendered by `lisp_parse_list_tail`.  The C code
builds the chain by assigning `l->right`; here the chain is assembled by
consing the first element onto the parsed tail. -/
def lisp_parse_list_or_sexp : Nat → List Char → Nat → PRes
  | 0, _, index => ⟨none, index, some .LE_ERROR⟩
  | fuel + 1, input, index =>
      let j := skip_space_and_comments input index
      if charAt input j = nulc then ⟨none, j, some .LE_EOF⟩
      else if charAt input j = ')' then ⟨some .nil, j + 1, none⟩
      else
        let r := lisp_parse_value_internal fuel input j
        if r.perr.isSome then r
        else match r.res with
          | none => ⟨none, r.idx, some .LE_ERROR⟩
          | some v =>
              let t := lisp_parse_list_tail fuel input r.idx
              if t.perr.isSome then t
              else match t.res with
                | none => ⟨none, t.idx, some .LE_ERROR⟩
                | some tl => ⟨some (.cons v tl), t.idx, none⟩
termination_by structural fuel => fuel

/-- The `while (true)` loop of `lisp_parse_list_or_sexp`: after at least
one element, either a `.` introduces the dotted tail (which must be
followed by `)`), a `)` closes the list with nil, or a further element is
parsed and the loop continues. -/
def lisp_parse_list_tail : Nat → List Char → Nat → PRes
  | 0, _, index => ⟨none, index, some .LE_ERROR⟩
  | fuel + 1, input, index =>
      let j := skip_space_and_comments input index
      if charAt input j = nulc then ⟨none, j, some .LE_EOF⟩
      else if charAt input j = '.' then
        let r := lisp_parse_value_internal fuel input (j + 1)
        if r.perr.isSome then r
        else match r.res with
          | none => ⟨none, r.idx, some .LE_ERROR⟩
          | some v =>
              let k := skip_space_and_comments input r.idx
              if charAt input k ≠ ')' then ⟨none, k, some .LE_SYNTAXERR⟩
              else ⟨some v, k + 1, none⟩
      else if charAt input j = ')' then ⟨some .nil, j + 1, none⟩
      else
        let r := lisp_parse_value_internal fuel input j
        if r.perr.isSome then r
        else match r.res with
          | none => ⟨none, r.idx, some .LE_ERROR⟩
          | some v =>
              let t := lisp_parse_list_tail fuel input r.idx
              if t.perr.isSome then t
              else match t.res with
                | none => ⟨none, t.idx, some .LE_ERROR⟩
                | some tl => ⟨some (.cons v tl), t.idx, none⟩
termination_by structural fuel => fuel

end

/-- Outcome of the public `lisp_parse_value`: the value written to
`*output`, the returned byte count (`-1` on error) and the error number
recorded on the runtime (`rt->err_num`), if any. -/
structure ParseOut where
  output : Option LVal
  bytes : Int
  errnum : Option LErrno
deriving DecidableEq, Repr

/-- `lisp_parse_value` from parse.c. -/
def lisp_parse_value (fuel : Nat) (input : List Char) (index : Nat) : ParseOut :=
  let r := lisp_parse_value_internal fuel input index
  match r.perr with
  | some e => ⟨r.res, -1, some e⟩
  | none => ⟨r.res, (r.idx : Int) - (index : Int), none⟩

/-! ## Builtins (src/builtins.c)

Builtins receive their (already evaluated, proper-list) argument list as an
`LVal` and return either a value or an error recorded on the runtime,
rendered as `Except LErrno LVal`.  The evaluator itself (`lisp_eval`,
`lisp_call`, defined outside the given sources) is abstracted as a function
parameter wherever a builtin invokes it. -/

/-- Build a proper list value from a Lean list of elements. -/
def listOf : List LVal → LVal
  | [] => .nil
  | v :: vs => .cons v (listOf vs)

/-- Whether a value has `type_list` (both the nil singleton and cons cells
carry the list type descriptor in the C code). -/
def is_list_type : LVal → Bool
  | .nil => true
  | .cons _ _ => true
  | _ => false

/-- Modelled from the spec: `lisp_get_args` (defined outside the given
sources) destructures an argument list against a format string, section
4.3's argument-spec mini-language: `i`/`d` integer, `s` symbol, `S` string,
`l` list, `*` any value, `R` rest of the list bound as-is and matching nil;
failure raises `type`, `too-few` or `too-many`. -/
def lisp_get_args : List Char → LVal → Except LErrno (List LVal)
  | [], .nil => .ok []
  | [], .cons _ _ => .error .LE_2MANY
  | [], _ => .error .LE_TYPE
  | 'R' :: _, args => .ok [args]
  | _ :: _, .nil => .error .LE_2FEW
  | f :: fs, .cons a rest =>
      let okHere : Bool :=
        if f = '*' then true
        else if f = 'l' then is_list_type a
        else if f = 'd' ∨ f = 'i' then (match a with | .int _ => true | _ => false)
        else if f = 's' then (match a with | .sym _ => true | _ => false)
        else if f = 'S' then (match a with | .str _ => true | _ => false)
        else true
      if okHere then
        match lisp_get_args fs rest with
        | .ok vs => .ok (a :: vs)
        | .error e => .error e
      else .error .LE_TYPE
  | _ :: _, _ => .error .LE_TYPE

/-- Truthiness as `lisp_builtin_if` tests it:
`condition->type == type_integer && ((lisp_integer*)condition)->x`. -/
def if_truthy : LVal → Bool
  | .int n => n ≠ 0
  | _ => false

/-- `lisp_builtin_if` from builtins.c, with the evaluator abstracted as
`ev` (the C code calls `lisp_eval` on the condition and on the selected
branch). -/
def lisp_builtin_if (ev : LVal → Except LErrno LVal) (a : LVal) :
    Except LErrno LVal :=
  match lisp_get_args ['*', '*', '*'] a with
  | .error e => .error e
  | .ok [condition, body_true, body_false] =>
      match ev condition with
      | .error e => .error e
      | .ok c =>
          match c with
          | .int x => if x ≠ 0 then ev body_true else ev body_false
          | _ => ev body_false
  | .ok _ => .error .LE_ERROR

/-- Modelled from the spec: `lisp_list_length` (defined outside the given
sources) counts the cells of a proper list, walking with `lisp_for_each`,
which stops at nil or at a non-list tail. -/
def lisp_list_length : LVal → Nat
  | .cons _ r => 1 + lisp_list_length r
  | _ => 0

/-- `lisp_new_pair_list` from builtins.c: the two-element list `(one two)`. -/
def lisp_new_pair_list (one two : LVal) : LVal :=
  .cons one (.cons two .nil)

/-- The `lisp_for_each` fold of `lisp_builtin_reduce`: repeatedly call the
callable on `(initializer element)`, threading the result, propagating
evaluation errors (`lisp_error_check`). -/
def reduce_fold (call : LVal → LVal → Except LErrno LVal) (callable : LVal) :
    LVal → LVal → Except LErrno LVal
  | initializer, .cons x rest =>
      match call callable (lisp_new_pair_list initializer x) with
      | .error e => .error e
      | .ok v => reduce_fold call callable v rest
  | initializer, _ => .ok initializer

/-- `lisp_builtin_reduce` from builtins.c, with `lisp_call` abstracted as
`call` (callable and argument list). -/
def lisp_builtin_reduce (call : LVal → LVal → Except LErrno LVal)
    (args : LVal) : Except LErrno LVal :=
  let length := lisp_list_length args
  if length = 2 then
    match lisp_get_args ['*', 'l'] args with
    | .error e => .error e
    | .ok [callable, list] =>
        if lisp_list_length list < 2 then .error .LE_2FEW
        else match list with
          | .cons x rest => reduce_fold call callable x rest
          | _ => .error .LE_ERROR
    | .ok _ => .error .LE_ERROR
  else if length = 3 then
    match lisp_get_args ['*', '*', 'l'] args with
    | .error e => .error e
    | .ok [callable, initializer, list] =>
        if lisp_list_length list < 1 then .error .LE_2FEW
        else reduce_fold call callable initializer list
    | .ok _ => .error .LE_ERROR
  else .error .LE_2MANY

/-- Modelled from the spec: `lisp_quote` (defined outside the given
sources) wraps a value as `(quote v)`; section 4.3: each `map` argument is
individually wrapped with `quote` at call time. -/
def lisp_quote (v : LVal) : LVal :=
  .cons (.sym "quote") (.cons v .nil)

/-- Outcome of a C helper that may return a value, return `NULL` as a
signal, or hit undefined behaviour (a wild read or a NULL dereference). -/
inductive CRes (α : Type) where
  | crash
  | cnull
  | ok (v : α)
deriving DecidableEq, Repr

/-- The `lisp_for_each` loop body of `get_quoted_left_items`, collecting
the quoted head of each argument list.  A nil argument list makes the C
function return NULL (exhaustion signal).  A non-list argument is cast to
`lisp_list*` and its `left` field read — a type-confused read of a foreign
payload, rendered as `crash`. -/
def gqli_go : LVal → CRes (List LVal)
  | .cons hd tl =>
      match hd with
      | .nil => .cnull
      | .cons l _ =>
          (match gqli_go tl with
           | .crash => .crash
           | .cnull => .cnull
           | .ok items => .ok (lisp_quote l :: items))
      | _ => .crash
  | _ => .ok []

/-- `get_quoted_left_items` from builtins.c.  When `list_of_lists` is not a
non-empty list the loop body never runs, `left_items` stays NULL, and the
trailing `left_items->right = lisp_nil_new(rt)` dereferences NULL: crash. -/
def get_quoted_left_items : LVal → CRes LVal
  | .cons hd tl =>
      (match gqli_go (.cons hd tl) with
       | .crash => .crash
       | .cnull => .cnull
       | .ok items => .ok (listOf items))
  | _ => .crash

/-- The `lisp_for_each` loop body of `advance_lists`, collecting the
`right` of each argument list.  A non-list element makes the C function
return NULL.  A nil element passes the `type != type_list` test (nil has
list type) and the code then stores `nil->right`, which is the NULL
pointer; every later use of that stored pointer crashes, so the case is
rendered as `crash` (it is unreachable from `lisp_builtin_map`, which
signals exhaustion in `get_quoted_left_items` first). -/
def adv_go : LVal → CRes (List LVal)
  | .cons hd tl =>
      match hd with
      | .cons _ r =>
          (match adv_go tl with
           | .crash => .crash
           | .cnull => .cnull
           | .ok items => .ok (r :: items))
      | .nil => .crash
      | _ => .cnull
  | _ => .ok []

/-- `advance_lists` from builtins.c; the same NULL-dereference on an empty
`list_of_lists` as in `get_quoted_left_items`. -/
def advance_lists : LVal → CRes LVal
  | .cons hd tl =>
      (match adv_go (.cons hd tl) with
       | .crash => .crash
       | .cnull => .cnull
       | .ok items => .ok (listOf items))
  | _ => .crash

/-- Outcome of a builtin whose embedding also models crashes and carries
recursion fuel: a value, a recorded error, undefined behaviour, or fuel
exhaustion. -/
inductive BRes where
  | ok (v : LVal)
  | err (e : LErrno)
  | crash
  | nofuel
deriving DecidableEq, Repr

/-- Outcome of the `while` loop of `lisp_builtin_map`: the collected call
results, a propagated evaluation error, undefined behaviour, or fuel
exhaustion. -/
inductive MLRes where
  | items (l : List LVal)
  | merr (e : LErrno)
  | crash
  | nofuel
deriving DecidableEq, Repr

/-- The `while` loop of `lisp_builtin_map`, collecting one call result per
iteration: take the quoted heads, call `f` on them, advance every list,
repeat; stop (without adding an item) when `get_quoted_left_items` signals
exhaustion.  When `advance_lists` returns NULL the next iteration's
`lisp_for_each(NULL)` dereferences NULL: crash. -/
def map_loop (call : LVal → LVal → Except LErrno LVal) (f : LVal) :
    Nat → LVal → MLRes
  | 0, _ => .nofuel
  | fuel + 1, map_args =>
      match get_quoted_left_items map_args with
      | .crash => .crash
      | .cnull => .items []
      | .ok args =>
          match call f args with
          | .error e => .merr e
          | .ok v =>
              match advance_lists map_args with
              | .crash => .crash
              | .cnull => .crash
              | .ok next =>
                  match map_loop call f fuel next with
                  | .items items => .items (v :: items)
                  | other => other

/-- `lisp_builtin_map` from builtins.c, with `lisp_call` abstracted as
`call`.  The guard `map_args->right->type != type_list` is the intended
too-few-arguments check, but nil has list type, so a single-argument call
reaches the loop and crashes in `get_quoted_left_items`; a zero-argument
call dereferences nil's NULL `right` field (crash).  If the loop exits
without having produced a single item, `ret` is still NULL and
`ret->right = lisp_nil_new(rt)` dereferences NULL: crash. -/
def lisp_builtin_map (call : LVal → LVal → Except LErrno LVal) (fuel : Nat)
    (map_args : LVal) : BRes :=
  match map_args with
  | .cons f rest =>
      if is_list_type rest then
        match map_loop call f fuel rest with
        | .items [] => .crash
        | .items items => .ok (listOf items)
        | .merr e => .err e
        | .crash => .crash
        | .nofuel => .nofuel
      else .err .LE_2FEW
  | _ => .crash

/-! ## Quasiquote (src/builtins.c, lisp_quasiquote)

`lisp_quasiquote` rewrites its template through the cells' `left` pointers,
so the embedding makes the store explicit: a heap of cells addressed by
natural-number ids, with cons cells holding ids.  The evaluator that the
unquote branch invokes is abstracted as a function from heap and id to an
optional (heap, id) pair (`none` mirrors `lisp_eval` returning NULL). -/

/-- One heap cell: the payload shapes of the value kinds the template can
contain.  `nilc` is the nil singleton's cell. -/
inductive Cell where
  | nilc
  | intc (n : Int)
  | strc (s : String)
  | symc (s : String)
  | consc (l r : Nat)
deriving DecidableEq, Repr

/-- A heap: cell ids are indices into the list. -/
abbrev Heap := List Cell

/-- Read the cell at id `i` (ids are always in range in the states we
build; out-of-range reads default to the nil cell). -/
def cellAt (h : Heap) (i : Nat) : Cell :=
  h.getD i .nilc

/-- Overwrite the `left` field of the cons cell at id `i` (the C statement
`vl->left = ...`); non-cons cells are left unchanged. -/
def setLeft (h : Heap) (i : Nat) (newl : Nat) : Heap :=
  match cellAt h i with
  | .consc _ r => h.set i (.consc newl r)
  | _ => h

/-- Read a heap value back as a tree, for observing what a template looks
like before and after quasiquotation. -/
def readback (h : Heap) : Nat → Nat → LVal
  | 0, _ => .nil
  | fuel + 1, i =>
      match cellAt h i with
      | .nilc => .nil
      | .intc n => .int n
      | .strc s => .str s
      | .symc s => .sym s
      | .consc l r => .cons (readback h fuel l) (readback h fuel r)

mutual

/-- `lisp_quasiquote` from builtins.c: a non-list or nil value is returned
unchanged; a list whose head is the symbol `unquote` is handed whole to the
evaluator; otherwise each element of the list is quasiquoted recursively
and written back into the same cell's `left` field (`vl->left = ...`), and
the original value is returned. -/
def lisp_quasiquote (ev : Heap → Nat → Option (Heap × Nat)) :
    Nat → Heap → Nat → Option (Heap × Nat)
  | 0, _, _ => none
  | fuel + 1, h, v =>
      match cellAt h v with
      | .consc l _ =>
          (match cellAt h l with
           | .symc s =>
               if s = "unquote" then ev h v
               else
                 match qq_loop ev fuel h v with
                 | none => none
                 | some h' => some (h', v)
           | _ =>
               match qq_loop ev fuel h v with
               | none => none
               | some h' => some (h', v))
      | _ => some (h, v)
termination_by structural fuel => fuel

/-- The `lisp_for_each` loop of `lisp_quasiquote`: walk the chain of cons
cells, replacing each cell's `left` in place; stop at nil or a non-list
tail; a NULL result from the recursive call aborts. -/
def qq_loop (ev : Heap → Nat → Option (Heap × Nat)) :
    Nat → Heap → Nat → Option Heap
  | 0, _, _ => none
  | fuel + 1, h, cell =>
      match cellAt h cell with
      | .consc l r =>
          (match lisp_quasiquote ev fuel h l with
           | none => none
           | some p => qq_loop ev fuel (setLeft p.1 cell p.2) r)
      | _ => some h
termination_by structural fuel => fuel

end

/-- Modelled from the spec: the fragment of `lisp_eval` (defined outside
the given sources) that the quasiquote claims exercise — evaluating a list
`(unquote y)` invokes the `unquote` builtin, which evaluates `y`, and an
integer `y` is self-evaluating (section 4.3 evaluation rules). -/
def ev_unquote_int (h : Heap) (v : Nat) : Option (Heap × Nat) :=
  match cellAt h v with
  | .consc l r =>
      (match cellAt h l, cellAt h r with
       | .symc s, .consc y _ =>
           if s = "unquote" then
             match cellAt h y with
             | .intc _ => some (h, y)
             | _ => none
           else none
       | _, _ => none)
  | _ => none

/-! ## Collector (src/gc.c)

Objects are identified by natural numbers; the runtime's all-objects list
is a list of ids with the head the first object (`rt->head`); the mark
field is a function from ids to marks; the type descriptors' child
iterators are a function from ids to child lists.  The ring buffer
`rt->rb` (defined outside the given sources; per the spec a queue pushed at
the back and popped at the front, growing as needed) is a Lean list used
FIFO.  `lisp_mark` additionally records the trace of enqueue events, each
the pushed id together with its mark at the moment of the push. -/

/-- The tri-state mark of every value header. -/
inductive GcMark where
  | GC_NOMARK
  | GC_QUEUED
  | GC_MARKED
deriving DecidableEq, Repr

/-- Update one id's mark. -/
def markSet (m : Nat → GcMark) (i : Nat) (x : GcMark) : Nat → GcMark :=
  fun j => if j = i then x else m j

/-- The child iteration inside `lisp_mark`'s loop: for each child of the
popped value, if its mark is `GC_NOMARK`, set it to `GC_QUEUED` and push it
at the back of the queue, recording the enqueue event. -/
def mark_children (m : Nat → GcMark) (q : List Nat)
    (evs : List (Nat × GcMark)) :
    List Nat → (Nat → GcMark) × List Nat × List (Nat × GcMark)
  | [] => (m, q, evs)
  | c :: cs =>
      if m c = .GC_NOMARK then
        mark_children (markSet m c .GC_QUEUED) (q ++ [c])
          (evs ++ [(c, GcMark.GC_QUEUED)]) cs
      else
        mark_children m q evs cs

/-- The `while (rt->rb.count > 0)` loop of `lisp_mark`: pop the front,
set its mark to `GC_MARKED`, then iterate its children.  Fuel bounds the
iteration; the remaining queue is returned so a drained run is observable
as an empty second component. -/
def mark_loop (ch : Nat → List Nat) :
    Nat → (Nat → GcMark) → List Nat → List (Nat × GcMark) →
    (Nat → GcMark) × List Nat × List (Nat × GcMark)
  | 0, m, q, evs => (m, q, evs)
  | fuel + 1, m, q, evs =>
      match q with
      | [] => (m, [], evs)
      | v :: q' =>
          let s := mark_children (markSet m v .GC_MARKED) q' evs (ch v)
          mark_loop ch fuel s.1 s.2.1 s.2.2

/-- `lisp_mark` from gc.c: push the root (its mark is not touched by the
push), then run the loop.  Returns the final marks, the remaining queue
(empty whenever the fuel sufficed) and the enqueue-event trace. -/
def lisp_mark (ch : Nat → List Nat) (fuel : Nat) (m : Nat → GcMark)
    (root : Nat) : (Nat → GcMark) × List Nat × List (Nat × GcMark) :=
  mark_loop ch fuel m [root] [(root, m root)]

/-- The `while (curr->next)` loop of `lisp_sweep`, starting from `curr`:
an unmarked successor is freed and unlinked (`curr` stays); a marked
successor resets `curr`'s mark to `GC_NOMARK` and advances; when no
successor remains, `curr`'s mark is reset.  Returns the surviving suffix of
the object list (including `curr`) and the updated marks. -/
def sweep_from (m : Nat → GcMark) (curr : Nat) :
    List Nat → List Nat × (Nat → GcMark)
  | [] => ([curr], markSet m curr .GC_NOMARK)
  | nxt :: rest =>
      if m nxt ≠ .GC_MARKED then
        sweep_from m curr rest
      else
        let s := sweep_from (markSet m curr .GC_NOMARK) nxt rest
        (curr :: s.1, s.2)

/-- `lisp_sweep` from gc.c: the object list always starts at `rt->head`,
which `lisp_init` sets to the nil singleton and which the loop never frees
(only successors are freed). -/
def lisp_sweep (m : Nat → GcMark) (head : Nat) (tail : List Nat) :
    List Nat × (Nat → GcMark) :=
  sweep_from m head tail

/-- Reachability through the child iterators, the tracing sense in which
section 3 speaks of values reachable from a root. -/
inductive Reach (ch : Nat → List Nat) (root : Nat) : Nat → Prop
  | refl : Reach ch root root
  | step {i c : Nat} : Reach ch root i → c ∈ ch i → Reach ch root c

/-- Whether a cell is a cons cell. -/
def is_cons_cell : Cell → Bool
  | .consc _ _ => true
  | _ => false

/-- Whether the value at id `v` is a list whose head is the symbol
`unquote`. -/
def head_unquote (h : Heap) (v : Nat) : Bool :=
  match cellAt h v with
  | .consc l _ =>
      (match cellAt h l with
       | .symc s => s = "unquote"
       | _ => false)
  | _ => false

/-- The concrete template `((unquote 5))`: ids 0 nil, 1 the symbol
`unquote`, 2 the integer 5, 3 the list `(5)`, 4 the form `(unquote 5)`,
5 the template. -/
def qqTemplateHeap : Heap :=
  [.nilc, .symc "unquote", .intc 5, .consc 2 0, .consc 1 3, .consc 4 0]

/-- Whether an optional parse output holds an integer value. -/
def isIntVal : Option LVal → Bool
  | some (.int _) => true
  | _ => false

/-- Token segments joined with `.` separators: the shape of a dotted
symbol token built from its attribute segments. -/
def dotJoin : List (List Char) → List Char
  | [] => []
  | [t] => t
  | t :: ts => t ++ '.' :: dotJoin ts

/-- Follows the spec's words (section 4.2, dotted symbols): the nested
attribute access a dotted token denotes — `a.b.c` becomes
`(getattr (getattr a (quote b)) (quote c))`, i.e. a left fold of getattr
nodes over the attribute segments. -/
def dottedAccessSpec (t0 : List Char) (ts : List (List Char)) : LVal :=
  ts.foldl getattr_node (.sym (String.mk t0))

/-- Concrete child map for the collector witness: object 1 has the single
child 2; nothing else has children. -/
def gcW_ch : Nat → List Nat := fun i => if i = 1 then [2] else []

/-- Concrete all-unmarked initial marks for the collector witness. -/
def gcW_m : Nat → GcMark := fun _ => .GC_NOMARK

/-! ## Claim theorems -/

/-- C10: an unmatched `)` as the first significant byte makes
`lisp_parse_value` succeed with nil: no error is recorded, and the byte
count covers everything up to and including the `)`. -/
theorem unmatched_rparen_returns_nil (fuel index : Nat) (input : List Char)
    (h : charAt input (skip_space_and_comments input index) = ')') :
    lisp_parse_value (fuel + 1) input index =
      ⟨some .nil,
       ((skip_space_and_comments input index : Int) + 1 - (index : Int)),
       none⟩ := by
  have h1 : ¬ ((')' : Char) = '"') := by decide
  have h2 : ¬ ((')' : Char) = nulc) := by decide
  simp only [lisp_parse_value, lisp_parse_value_internal, h, if_neg h1,
    if_neg h2, ParseOut.mk.injEq]
  push_cast
  ring

/-- C10 witness: the input consisting of the single byte `)`. -/
theorem unmatched_rparen_returns_nil_witness :
    lisp_parse_value 5 [')'] 0 = ⟨some .nil, 1, none⟩ := by
  have h := unmatched_rparen_returns_nil 4 0 [')'] (by decide)
  simpa using h

/-- C3 (code bug): on the unterminated string literal `"abc` the parse
fails, but the error number recorded on the runtime is `LE_SYNTAX`, not
`LE_EOF` as the spec's error table (and the code's own message, which
reads "unexpected eof while parsing string") say. -/
theorem unterminated_string_sets_syntax_errno :
    lisp_parse_value 5 ['"', 'a', 'b', 'c'] 0 =
      ⟨none, -1, some .LE_SYNTAXERR⟩ ∧
    LErrno.LE_SYNTAXERR ≠ LErrno.LE_EOF := by
  constructor
  · decide
  · decide

/-- C2 counterexample: the token `-5` is read as the symbol `-5`, not as
an integer — the dispatcher hands a token to the integer parser only when
its first character is a digit, so the leading `-` sends it to the symbol
parser. -/
theorem minus_digit_token_reads_as_symbol :
    lisp_parse_value 5 ['-', '5'] 0 = ⟨some (.sym "-5"), 2, none⟩ ∧
    isIntVal (lisp_parse_value 5 ['-', '5'] 0).output = false := by
  constructor
  · decide
  · decide

/-- Digits are none of the dispatcher's special characters. -/
theorem digit_not_special (c : Char) (h : c_isdigit c = true) :
    c ≠ '"' ∧ c ≠ nulc ∧ c ≠ ')' ∧ c ≠ '(' ∧ c ≠ bquot ∧ c ≠ ',' ∧
    c ≠ squot := by
  simp only [c_isdigit, Bool.and_eq_true, decide_eq_true_eq] at h
  obtain ⟨h1, h2⟩ := h
  refine ⟨?_, ?_, ?_, ?_, ?_, ?_, ?_⟩ <;> rintro rfl
  · exact absurd h1 (by decide)
  · exact absurd h1 (by decide)
  · exact absurd h1 (by decide)
  · exact absurd h1 (by decide)
  · exact absurd h2 (by decide)
  · exact absurd h1 (by decide)
  · exact absurd h1 (by decide)

/-- C2 amended: `lisp_parse_value_internal` hands the token at the first
significant byte to the integer parser exactly when that byte is a decimal
digit; a token starting with `-` goes to the symbol parser instead (the
integer parser itself would accept a sign, but is never reached for it). -/
theorem integer_dispatch_on_digit (fuel index : Nat) (input : List Char) :
    (c_isdigit (charAt input (skip_space_and_comments input index)) = true →
      lisp_parse_value_internal (fuel + 1) input index =
        lisp_parse_integer input (skip_space_and_comments input index)) ∧
    (charAt input (skip_space_and_comments input index) = '-' →
      lisp_parse_value_internal (fuel + 1) input index =
        lisp_parse_symbol input (skip_space_and_comments input index)) := by
  constructor
  · intro hd
    obtain ⟨n1, n2, n3, n4, n5, n6, n7⟩ :=
      digit_not_special _ hd
    simp only [lisp_parse_value_internal, n1, n2, n3, n4, n5, n6, n7, hd,
      if_false, if_true, ite_false, ite_true, false_or, or_false, or_self]
  · intro hm
    have m1 : ¬ (('-' : Char) = '"') := by decide
    have m2 : ¬ (('-' : Char) = nulc) := by decide
    have m3 : ¬ (('-' : Char) = ')') := by decide
    have m4 : ¬ (('-' : Char) = '(') := by decide
    have m5 : ¬ (('-' : Char) = bquot ∨ ('-' : Char) = ',' ∨
        ('-' : Char) = squot) := by decide
    have m6 : ¬ (c_isdigit '-' = true) := by decide
    simp only [lisp_parse_value_internal, hm, if_neg m1, if_neg m2,
      if_neg m3, if_neg m4, if_neg m5, if_neg m6]

/-- C2 amended witness: the token `7` dispatches to the integer parser,
the token `-5` dispatches to the symbol parser. -/
theorem integer_dispatch_on_digit_witness :
    lisp_parse_value_internal 5 ['7'] 0 = lisp_parse_integer ['7'] 0 ∧
    lisp_parse_value_internal 5 ['-', '5'] 0 = lisp_parse_symbol ['-', '5'] 0 := by
  constructor
  · have h := (integer_dispatch_on_digit 4 0 ['7']).1 (by decide)
    simpa using h
  · have h := (integer_dispatch_on_digit 4 0 ['-', '5']).2 (by decide)
    simpa using h

/-- C7: `(if c t e)` evaluates `c` and takes the true branch exactly when
the result is an integer with nonzero value; every other value — nil,
strings, symbols and non-nil lists included — takes the else branch. -/
theorem if_truthiness (ev : LVal → Except LErrno LVal) (c t e v : LVal)
    (h : ev c = .ok v) :
    lisp_builtin_if ev (listOf [c, t, e]) =
      (if if_truthy v then ev t else ev e) ∧
    (∀ n : Int, if_truthy (.int n) = decide (n ≠ 0)) ∧
    if_truthy .nil = false ∧
    (∀ s, if_truthy (.str s) = false) ∧
    (∀ s, if_truthy (.sym s) = false) ∧
    (∀ a b, if_truthy (.cons a b) = false) := by
  refine ⟨?_, fun n => rfl, rfl, fun s => rfl, fun s => rfl,
    fun a b => rfl⟩
  show lisp_builtin_if ev (.cons c (.cons t (.cons e .nil))) = _
  simp only [lisp_builtin_if, lisp_get_args, if_true, ite_true]
  rw [h]
  cases v <;> simp [if_truthy]

/-- The length of a built proper list. -/
theorem lisp_list_length_listOf (xs : List LVal) :
    lisp_list_length (listOf xs) = xs.length := by
  induction xs with
  | nil => rfl
  | cons x xs ih => simp [listOf, lisp_list_length, ih]; omega

/-- The reduce fold over a proper list is a left fold. -/
theorem reduce_fold_spec (call : LVal → LVal → Except LErrno LVal)
    (callable : LVal) (g : LVal → LVal → LVal)
    (hcall : ∀ a b, call callable (lisp_new_pair_list a b) = .ok (g a b)) :
    ∀ (xs : List LVal) (init : LVal),
      reduce_fold call callable init (listOf xs) = .ok (xs.foldl g init) := by
  intro xs
  induction xs with
  | nil => intro init; rfl
  | cons x xs ih =>
      intro init
      show reduce_fold call callable init (.cons x (listOf xs)) = _
      simp only [reduce_fold, hcall, List.foldl_cons]
      exact ih (g init x)

/-- C8: `reduce` accepts exactly 2 or 3 arguments; the 2-form needs a list
of at least 2 entries and seeds with the first, the 3-form needs at least
one entry and seeds with the given initializer; violations raise arity
errors (`too-few`/`too-many`); the result is the left fold. -/
theorem reduce_arity_and_fold (call : LVal → LVal → Except LErrno LVal)
    (callable initial x1 x2 : LVal) (xs : List LVal)
    (g : LVal → LVal → LVal)
    (hcall : ∀ a b, call callable (lisp_new_pair_list a b) = .ok (g a b)) :
    lisp_builtin_reduce call (listOf [callable, listOf (x1 :: x2 :: xs)]) =
      .ok (List.foldl g x1 (x2 :: xs)) ∧
    lisp_builtin_reduce call (listOf [callable, initial, listOf (x1 :: xs)]) =
      .ok (List.foldl g initial (x1 :: xs)) ∧
    lisp_builtin_reduce call (listOf [callable, listOf [x1]]) =
      .error .LE_2FEW ∧
    lisp_builtin_reduce call (listOf [callable, initial, .nil]) =
      .error .LE_2FEW ∧
    lisp_builtin_reduce call (listOf [callable]) = .error .LE_2MANY ∧
    lisp_builtin_reduce call (listOf [callable, initial, listOf [x1], x2]) =
      .error .LE_2MANY := by
  refine ⟨?_, ?_, ?_, ?_, ?_, ?_⟩
  · have hcond :
        ¬ (lisp_list_length (LVal.cons x1 (LVal.cons x2 (listOf xs))) < 2) := by
      show ¬ (lisp_list_length (listOf (x1 :: x2 :: xs)) < 2)
      rw [lisp_list_length_listOf]; simp [List.length_cons]
    simp only [listOf, lisp_builtin_reduce, lisp_list_length, lisp_get_args,
      is_list_type]
    norm_num
    rw [if_neg hcond]
    exact reduce_fold_spec call callable g hcall (x2 :: xs) x1
  · have hcond : ¬ (lisp_list_length (LVal.cons x1 (listOf xs)) = 0) := by
      show ¬ (lisp_list_length (listOf (x1 :: xs)) = 0)
      rw [lisp_list_length_listOf]; simp
    simp only [listOf, lisp_builtin_reduce, lisp_list_length, lisp_get_args,
      is_list_type]
    norm_num
    rw [if_neg hcond]
    exact reduce_fold_spec call callable g hcall (x1 :: xs) initial
  · simp [lisp_builtin_reduce, listOf, lisp_list_length, lisp_get_args,
      is_list_type]
  · simp [lisp_builtin_reduce, listOf, lisp_list_length, lisp_get_args,
      is_list_type]
  · simp [lisp_builtin_reduce, listOf, lisp_list_length]
  · simp [lisp_builtin_reduce, listOf, lisp_list_length]

/-- C8 witness: reducing `(1 2 3)` bare and with initializer 7 under a
pairing callable, together with the arity violations. -/
theorem reduce_arity_and_fold_witness :
    lisp_builtin_reduce
        (fun _ args =>
          match args with
          | LVal.cons a (LVal.cons b LVal.nil) => .ok (LVal.cons a b)
          | _ => .error .LE_ERROR)
        (listOf [.sym "f", listOf [.int 1, .int 2, .int 3]]) =
      .ok (.cons (.cons (.int 1) (.int 2)) (.int 3)) ∧
    lisp_builtin_reduce
        (fun _ args =>
          match args with
          | LVal.cons a (LVal.cons b LVal.nil) => .ok (LVal.cons a b)
          | _ => .error .LE_ERROR)
        (listOf [.sym "f", .int 7, listOf [.int 1]]) =
      .ok (.cons (.int 7) (.int 1)) ∧
    lisp_builtin_reduce
        (fun _ args =>
          match args with
          | LVal.cons a (LVal.cons b LVal.nil) => .ok (LVal.cons a b)
          | _ => .error .LE_ERROR)
        (listOf [.sym "f"]) = .error .LE_2MANY := by
  have h := reduce_arity_and_fold
    (fun _ args =>
      match args with
      | LVal.cons a (LVal.cons b LVal.nil) => .ok (LVal.cons a b)
      | _ => .error .LE_ERROR)
    (.sym "f") (.int 7) (.int 1) (.int 2) [.int 3] (fun a b => .cons a b)
    (fun a b => rfl)
  refine ⟨?_, ?_, ?_⟩
  · simpa using h.1
  · have h2 := reduce_arity_and_fold
      (fun _ args =>
        match args with
        | LVal.cons a (LVal.cons b LVal.nil) => .ok (LVal.cons a b)
        | _ => .error .LE_ERROR)
      (.sym "f") (.int 7) (.int 1) (.int 2) [] (fun a b => .cons a b)
      (fun a b => rfl)
    simpa using h2.2.1
  · simpa using h.2.2.2.2.1

/-- C4 (code bug): `map` crashes (NULL dereference) when an argument list
is empty from the start, when it is given a single argument, and when it is
given no arguments — instead of returning the empty result list or raising
`too-few` as the spec says; with non-empty lists it does apply the callable
positionally to the quote-wrapped left elements. -/
theorem map_crashes_on_empty_list :
    lisp_builtin_map (fun _ _ => Except.ok LVal.nil) 5
      (listOf [.sym "+", .nil]) = .crash ∧
    lisp_builtin_map (fun _ _ => Except.ok LVal.nil) 5
      (listOf [.sym "+"]) = .crash ∧
    lisp_builtin_map (fun _ _ => Except.ok LVal.nil) 5 LVal.nil = .crash ∧
    lisp_builtin_map (fun _ args => Except.ok args) 5
        (listOf [.sym "f", listOf [.int 1, .int 2],
                 listOf [.int 10, .int 20]]) =
      .ok (listOf [listOf [lisp_quote (.int 1), lisp_quote (.int 10)],
                   listOf [lisp_quote (.int 2), lisp_quote (.int 20)]]) := by
  refine ⟨by decide, by decide, by decide, by decide⟩

/-- C1 counterexample: quasiquoting the template `((unquote 5))` rewrites
the template's own cons cell (its `left` becomes the evaluated integer)
and returns the very same value id — the original template is mutated, not
copied and left unmodified. -/
theorem quasiquote_mutates_template :
    lisp_quasiquote ev_unquote_int 9 qqTemplateHeap 5 =
      some (qqTemplateHeap.set 5 (.consc 2 0), 5) ∧
    readback (qqTemplateHeap.set 5 (.consc 2 0)) 9 5 ≠
      readback qqTemplateHeap 9 5 := by
  refine ⟨by decide, by decide⟩

/-- C1 amended: `quasiquote` transforms its template in place: atoms and
nil are returned unchanged (with the heap untouched), a template that is
itself an `(unquote y)` form is handed whole to the evaluator, and any
other list comes back as the very same value (the same id), its cells'
`left` fields rewritten in place. -/
theorem quasiquote_in_place (ev : Heap → Nat → Option (Heap × Nat))
    (fuel : Nat) (h : Heap) (v l r : Nat) :
    (is_cons_cell (cellAt h v) = false →
      lisp_quasiquote ev (fuel + 1) h v = some (h, v)) ∧
    (cellAt h v = .consc l r → cellAt h l = .symc "unquote" →
      lisp_quasiquote ev (fuel + 1) h v = ev h v) ∧
    (cellAt h v = .consc l r → head_unquote h v = false →
      ∀ h' w, lisp_quasiquote ev (fuel + 1) h v = some (h', w) → w = v) := by
  refine ⟨?_, ?_, ?_⟩
  · intro hc
    rw [lisp_quasiquote.eq_def]
    cases hcell : cellAt h v with
    | nilc => simp [hcell]
    | intc n => simp [hcell]
    | strc s => simp [hcell]
    | symc s => simp [hcell]
    | consc a b => rw [hcell] at hc; simp [is_cons_cell] at hc
  · intro h2 h3
    rw [lisp_quasiquote.eq_def]
    simp [h2, h3]
  · intro h2 h4 h' w heq
    rw [lisp_quasiquote.eq_def] at heq
    simp only [h2] at heq
    have hs : ∀ s, cellAt h l = Cell.symc s → ¬ (s = "unquote") := by
      intro s hl hcontra
      subst hcontra
      simp [head_unquote, h2, hl] at h4
    cases hl : cellAt h l with
    | symc s =>
        simp only [hl] at heq
        rw [if_neg (hs s hl)] at heq
        cases hq : qq_loop ev fuel h v with
        | none => rw [hq] at heq; simp at heq
        | some h3 => rw [hq] at heq; simp at heq; exact heq.2.symm
    | nilc =>
        simp only [hl] at heq
        cases hq : qq_loop ev fuel h v with
        | none => rw [hq] at heq; simp at heq
        | some h3 => rw [hq] at heq; simp at heq; exact heq.2.symm
    | intc n =>
        simp only [hl] at heq
        cases hq : qq_loop ev fuel h v with
        | none => rw [hq] at heq; simp at heq
        | some h3 => rw [hq] at heq; simp at heq; exact heq.2.symm
    | strc s =>
        simp only [hl] at heq
        cases hq : qq_loop ev fuel h v with
        | none => rw [hq] at heq; simp at heq
        | some h3 => rw [hq] at heq; simp at heq; exact heq.2.symm
    | consc a b =>
        simp only [hl] at heq
        cases hq : qq_loop ev fuel h v with
        | none => rw [hq] at heq; simp at heq
        | some h3 => rw [hq] at heq; simp at heq; exact heq.2.symm

/-- C1 amended witness: on the template heap, the integer at id 2 passes
through untouched, the `(unquote 5)` form at id 4 goes to the evaluator,
and the list template at id 5 comes back under its own id. -/
theorem quasiquote_in_place_witness :
    lisp_quasiquote ev_unquote_int 9 qqTemplateHeap 2 =
      some (qqTemplateHeap, 2) ∧
    lisp_quasiquote ev_unquote_int 9 qqTemplateHeap 4 =
      ev_unquote_int qqTemplateHeap 4 ∧
    (5 : Nat) = 5 := by
  refine ⟨?_, ?_, ?_⟩
  · exact (quasiquote_in_place ev_unquote_int 8 qqTemplateHeap 2 0 0).1
      (by decide)
  · exact (quasiquote_in_place ev_unquote_int 8 qqTemplateHeap 4 1 3).2.1
      (by decide) (by decide)
  · exact (quasiquote_in_place ev_unquote_int 8 qqTemplateHeap 5 4 0).2.2
      (by decide) (by decide) (qqTemplateHeap.set 5 (.consc 2 0)) 5
      (by decide)

/-- C7 witness: with a self-evaluator, condition 2 picks the true branch
and condition nil picks the else branch. -/
theorem if_truthiness_witness :
    lisp_builtin_if (fun x => Except.ok x) (listOf [.int 2, .sym "t", .sym "e"]) =
      Except.ok (.sym "t") ∧
    lisp_builtin_if (fun x => Except.ok x) (listOf [.nil, .sym "t", .sym "e"]) =
      Except.ok (.sym "e") := by
  constructor
  · have h := (if_truthiness (fun x => Except.ok x) (.int 2) (.sym "t")
      (.sym "e") (.int 2) rfl).1
    simpa using h
  · have h := (if_truthiness (fun x => Except.ok x) .nil (.sym "t")
      (.sym "e") .nil rfl).1
    simpa using h

/-- A takeWhile scan that accepts a whole prefix stops exactly at the
remainder's first element when that element fails the predicate. -/
theorem takeWhile_append_stop (p : Char → Bool) :
    ∀ (xs ys : List Char), (∀ c ∈ xs, p c = true) →
      (∀ y, ys.head? = some y → p y = false) →
      (xs ++ ys).takeWhile p = xs := by
  intro xs
  induction xs with
  | nil =>
      intro ys _ hstop
      cases ys with
      | nil => rfl
      | cons y ys' =>
          simp [List.takeWhile_cons, hstop y rfl]
  | cons x xs ih =>
      intro ys hall hstop
      simp only [List.cons_append, List.takeWhile_cons,
        hall x (by simp), ih ys (fun c hc => hall c (by simp [hc])) hstop]
      simp

/-- Dropping one past a prefix skips the separator. -/
theorem drop_len_succ_append (t : List Char) (c : Char) (rest : List Char) :
    (t ++ c :: rest).drop (t.length + 1) = rest := by
  induction t with
  | nil => rfl
  | cons x t ih => simpa using ih

/-- Reading within the left part of an appended buffer. -/
theorem charAt_append_lt (xs ys : List Char) (i : Nat) (h : i < xs.length) :
    charAt (xs ++ ys) i = charAt xs i := by
  induction xs generalizing i with
  | nil => simp at h
  | cons x xs ih =>
      cases i with
      | zero => rfl
      | succ j =>
          have hj : j < xs.length := by simpa using h
          simpa [charAt] using ih j hj

/-- `charAt` at the last position of a non-empty buffer. -/
theorem charAt_getLast? (xs : List Char) (y : Char)
    (h : xs.getLast? = some y) : charAt xs (xs.length - 1) = y := by
  induction xs with
  | nil => simp at h
  | cons x xs ih =>
      cases xs with
      | nil => simp at h; simp [charAt, h]
      | cons z zs =>
          rw [List.getLast?_cons_cons] at h
          have := ih h
          simpa [charAt] using this


/-- `charAt` agrees with the head of the dropped suffix. -/
theorem charAt_drop_head (input : List Char) (i : Nat) :
    charAt input i = (input.drop i).headD nulc := by
  induction input generalizing i with
  | nil => simp [charAt]
  | cons x xs ih =>
      cases i with
      | zero => rfl
      | succ j => simpa [charAt] using ih j

/-- Membership in a dot-joined token. -/
theorem mem_dotJoin : ∀ (ts : List (List Char)) (c : Char),
    c ∈ dotJoin ts → c = '.' ∨ ∃ t ∈ ts, c ∈ t := by
  intro ts
  induction ts with
  | nil => intro c hc; simp [dotJoin] at hc
  | cons t ts ih =>
      intro c hc
      cases ts with
      | nil =>
          simp only [dotJoin] at hc
          exact Or.inr ⟨t, by simp, hc⟩
      | cons t2 ts' =>
          simp only [dotJoin, List.mem_append, List.mem_cons] at hc
          rcases hc with h | h | h
          · exact Or.inr ⟨t, by simp, h⟩
          · exact Or.inl h
          · rcases ih c h with h' | ⟨t', ht', hc'⟩
            · exact Or.inl h'
            · exact Or.inr ⟨t', by simp [ht'], hc'⟩

/-- The dot count of a dot-joined token whose segments are dot-free. -/
theorem dotJoin_count : ∀ (ts : List (List Char)),
    (∀ t ∈ ts, ∀ c ∈ t, c ≠ '.') → (dotJoin ts).count '.' = ts.length - 1 := by
  intro ts
  induction ts with
  | nil => intro _; rfl
  | cons t ts ih =>
      intro hfree
      cases ts with
      | nil =>
          show t.count '.' = 0
          exact List.count_eq_zero.mpr (fun hc => hfree t (by simp) '.' hc rfl)
      | cons t2 ts' =>
          have h0 : t.count '.' = 0 :=
            List.count_eq_zero.mpr (fun hc => hfree t (by simp) '.' hc rfl)
          have ihv := ih (fun u hu c hc => hfree u (by simp [hu]) c hc)
          simp only [dotJoin, List.count_append, List.count_cons_self, h0, ihv]
          simp [List.length_cons]

/-- A dot-joined token with a non-empty first segment is non-empty. -/
theorem dotJoin_ne_nil (t0 : List Char) (ts : List (List Char))
    (h : t0 ≠ []) : dotJoin (t0 :: ts) ≠ [] := by
  cases ts with
  | nil => simpa [dotJoin] using h
  | cons t2 ts' => simp [dotJoin]

/-- The last element of a dot-joined token is the last element of its last
segment. -/
theorem dotJoin_getLast? : ∀ (ts : List (List Char)) (t0 : List Char)
    (y : Char), ((t0 :: ts).getLast (by simp)).getLast? = some y →
    (∀ t ∈ t0 :: ts, t ≠ []) →
    (dotJoin (t0 :: ts)).getLast? = some y := by
  intro ts
  induction ts with
  | nil =>
      intro t0 y hy _
      simpa [dotJoin] using hy
  | cons t2 ts' ih =>
      intro t0 y hy hne
      have hlast : ((t2 :: ts').getLast (by simp)).getLast? = some y := by
        simpa [List.getLast_cons] using hy
      have hrec := ih t2 y hlast (fun t ht => hne t (by simp [ht]))
      have hnn : dotJoin (t2 :: ts') ≠ [] :=
        dotJoin_ne_nil t2 ts' (hne t2 (by simp))
      show (t0 ++ '.' :: dotJoin (t2 :: ts')).getLast? = some y
      rw [List.getLast?_append_cons]
      cases hdj : dotJoin (t2 :: ts') with
      | nil => exact absurd hdj hnn
      | cons d ds =>
          rw [List.getLast?_cons_cons]
          rw [hdj] at hrec
          exact hrec

/-- The `split_symbol` loop over a dot-joined remainder produces the left
fold of getattr nodes. -/
theorem split_loop_join : ∀ (ts : List (List Char)) (prev : LVal),
    (∀ t ∈ ts, ∀ c ∈ t, c ≠ '.') → ts ≠ [] →
    split_loop prev (dotJoin ts) ts.length = ts.foldl getattr_node prev := by
  intro ts
  induction ts with
  | nil => intro prev _ hne; exact absurd rfl hne
  | cons t ts ih =>
      intro prev hfree _
      cases ts with
      | nil =>
          show split_loop prev t (0 + 1) = getattr_node prev t
          simp [split_loop]
      | cons t2 ts' =>
          show split_loop prev (t ++ '.' :: dotJoin (t2 :: ts'))
              ((t2 :: ts').length + 1) = _
          have htok :
              (t ++ '.' :: dotJoin (t2 :: ts')).takeWhile
                (fun c => c ≠ '.') = t := by
            refine takeWhile_append_stop _ t _ (fun c hc => ?_) (fun y hy => ?_)
            · simp [hfree t (by simp) c hc]
            · simp only [List.head?_cons, Option.some.injEq] at hy
              simp [← hy]
          rw [split_loop]
          simp only [List.length_cons, Nat.succ_ne_zero, gt_iff_lt,
            Nat.succ_pos, if_pos, htok, drop_len_succ_append]
          have := ih (getattr_node prev t)
            (fun u hu c hc => hfree u (by simp [hu]) c hc) (by simp)
          simpa using this

/-- `split_symbol` on a dot-joined token is the spec's nested attribute
access. -/
theorem split_symbol_join (t0 : List Char) (ts : List (List Char))
    (hfree : ∀ t ∈ t0 :: ts, ∀ c ∈ t, c ≠ '.') (hne : ts ≠ []) :
    split_symbol (dotJoin (t0 :: ts)) ts.length = dottedAccessSpec t0 ts := by
  obtain ⟨t2, ts', rfl⟩ : ∃ t2 ts', ts = t2 :: ts' := by
    cases ts with
    | nil => exact absurd rfl hne
    | cons a b => exact ⟨a, b, rfl⟩
  have htok :
      (t0 ++ '.' :: dotJoin (t2 :: ts')).takeWhile (fun c => c ≠ '.') = t0 := by
    refine takeWhile_append_stop _ t0 _ (fun c hc => ?_) (fun y hy => ?_)
    · simp [hfree t0 (by simp) c hc]
    · simp only [List.head?_cons, Option.some.injEq] at hy
      simp [← hy]
  show split_symbol (t0 ++ '.' :: dotJoin (t2 :: ts')) (t2 :: ts').length = _
  rw [split_symbol]
  simp only [htok, drop_len_succ_append]
  exact split_loop_join (t2 :: ts') (.sym (String.mk t0))
    (fun u hu c hc => hfree u (by simp [hu]) c hc) (by simp)

/-- C9: a symbol token with interior dots parses to the spec's nested
attribute access with quoted attribute names; a dot at the first or last
position of the token is a syntax error. -/
theorem dotted_symbol_rewrite :
    (∀ (t0 : List Char) (ts : List (List Char)) (rest : List Char),
      (∀ t ∈ t0 :: ts, ∀ c ∈ t, sym_end c = false) →
      (∀ t ∈ t0 :: ts, ∀ c ∈ t, c ≠ '.') →
      (∀ t ∈ t0 :: ts, t ≠ []) →
      ts ≠ [] →
      (∀ y, rest.head? = some y → sym_end y = true) →
      lisp_parse_symbol (dotJoin (t0 :: ts) ++ rest) 0 =
        ⟨some (dottedAccessSpec t0 ts), (dotJoin (t0 :: ts)).length, none⟩) ∧
    (∀ (input : List Char) (index : Nat),
      0 < ((input.drop index).takeWhile (fun c => !sym_end c)).count '.' →
      (charAt input index = '.' ∨
       charAt input
         (index + ((input.drop index).takeWhile (fun c => !sym_end c)).length
           - 1) = '.') →
      lisp_parse_symbol input index = ⟨none, index, some .LE_SYNTAXERR⟩) := by
  constructor
  · intro t0 ts rest hterm hfree hnonempty hne hrest
    have hcs_all : ∀ c ∈ dotJoin (t0 :: ts), (!sym_end c) = true := by
      intro c hc
      rcases mem_dotJoin (t0 :: ts) c hc with h | ⟨t, ht, hct⟩
      · subst h; decide
      · simp [hterm t ht c hct]
    have htok :
        ((dotJoin (t0 :: ts) ++ rest).drop 0).takeWhile
          (fun c => !sym_end c) = dotJoin (t0 :: ts) := by
      simp only [List.drop_zero]
      exact takeWhile_append_stop _ _ _ hcs_all
        (fun y hy => by simp [hrest y hy])
    have hcount : (dotJoin (t0 :: ts)).count '.' = ts.length := by
      have := dotJoin_count (t0 :: ts) hfree
      simpa using this
    have hts_pos : 0 < ts.length := by
      cases ts with
      | nil => exact absurd rfl hne
      | cons a b => simp
    obtain ⟨h0, t0', rfl⟩ : ∃ h0 t0', t0 = h0 :: t0' := by
      cases ht0 : t0 with
      | nil => exact absurd ht0 (hnonempty t0 (by simp))
      | cons a b => exact ⟨a, b, rfl⟩
    obtain ⟨t2, ts', rfl⟩ : ∃ t2 ts', ts = t2 :: ts' := by
      cases ts with
      | nil => exact absurd rfl hne
      | cons a b => exact ⟨a, b, rfl⟩
    have hhead :
        charAt (dotJoin ((h0 :: t0') :: t2 :: ts') ++ rest) 0 = h0 := rfl
    have hhead_ne_dot : ¬ (h0 = '.') :=
      hfree (h0 :: t0') (by simp) h0 (by simp)
    have hhead_ne_nul : ¬ (h0 = nulc) := by
      intro contra
      have := hterm (h0 :: t0') (by simp) h0 (by simp)
      rw [contra] at this
      exact absurd this (by decide)
    have hlastseg_mem := List.getLast_mem
      (l := (h0 :: t0') :: t2 :: ts') (by simp)
    have hlastseg_ne :
        ((h0 :: t0') :: t2 :: ts').getLast (by simp) ≠ [] :=
      hnonempty _ hlastseg_mem
    obtain ⟨y, hy⟩ : ∃ y,
        (((h0 :: t0') :: t2 :: ts').getLast (by simp)).getLast? = some y := by
      cases hL : ((h0 :: t0') :: t2 :: ts').getLast (by simp) with
      | nil => exact absurd hL hlastseg_ne
      | cons a b => exact ⟨(a :: b).getLast (by simp), List.getLast?_eq_getLast _ _⟩
    have hy_mem : y ∈ ((h0 :: t0') :: t2 :: ts').getLast (by simp) := by
      obtain ⟨hne', heq⟩ := List.mem_getLast?_eq_getLast
        (l := ((h0 :: t0') :: t2 :: ts').getLast (by simp)) (x := y)
        (Option.mem_def.mpr hy)
      rw [heq]
      exact List.getLast_mem hne'
    have hy_ne_dot : ¬ (y = '.') := hfree _ hlastseg_mem y hy_mem
    have hj := dotJoin_getLast? (t2 :: ts') (h0 :: t0') y hy hnonempty
    have hdj_ne : dotJoin ((h0 :: t0') :: t2 :: ts') ≠ [] :=
      dotJoin_ne_nil _ _ (by simp)
    have hdj_pos : 0 < (dotJoin ((h0 :: t0') :: t2 :: ts')).length :=
      List.length_pos.mpr hdj_ne
    have hlast_char :
        charAt (dotJoin ((h0 :: t0') :: t2 :: ts') ++ rest)
          (0 + (dotJoin ((h0 :: t0') :: t2 :: ts')).length - 1) = y := by
      rw [Nat.zero_add]
      rw [charAt_append_lt _ _ _ (by omega)]
      exact charAt_getLast? _ y hj
    rw [lisp_parse_symbol]
    simp only [htok, hcount]
    rw [if_neg (by rw [hhead]; exact hhead_ne_nul)]
    rw [if_pos (by simpa using hts_pos)]
    rw [if_neg (by
      rintro (hc | hc)
      · rw [hhead] at hc; exact hhead_ne_dot hc
      · rw [hlast_char] at hc; exact hy_ne_dot hc)]
    rw [split_symbol_join _ _ hfree (by simp)]
    simp
  · intro input index hcnt hor
    have hnn : ¬ (charAt input index = nulc) := by
      intro hc
      have htok0 :
          (input.drop index).takeWhile (fun c => !sym_end c) = [] := by
        rw [charAt_drop_head] at hc
        cases hd : input.drop index with
        | nil => simp [hd]
        | cons c cs =>
            rw [hd] at hc
            simp only [List.headD_cons] at hc
            subst hc
            simp [hd, List.takeWhile_cons]
            decide
      rw [htok0] at hcnt
      simp at hcnt
    rw [lisp_parse_symbol]
    rw [if_neg hnn, if_pos (by simpa using hcnt), if_pos hor]

/-- C9 witness: `a.b.c` parses to the nested getattr form; `.ab` and `ab.`
are syntax errors. -/
theorem dotted_symbol_rewrite_witness :
    lisp_parse_symbol ['a', '.', 'b', '.', 'c'] 0 =
      ⟨some (dottedAccessSpec ['a'] [['b'], ['c']]), 5, none⟩ ∧
    lisp_parse_symbol ['.', 'a', 'b'] 0 = ⟨none, 0, some .LE_SYNTAXERR⟩ ∧
    lisp_parse_symbol ['a', 'b', '.'] 0 = ⟨none, 0, some .LE_SYNTAXERR⟩ := by
  refine ⟨?_, ?_, ?_⟩
  · have h := dotted_symbol_rewrite.1 ['a'] [['b'], ['c']] []
      (by decide) (by decide) (by decide) (by decide)
      (fun y hy => by simp at hy)
    have e1 : dotJoin [['a'], ['b'], ['c']] ++ ([] : List Char) =
        ['a', '.', 'b', '.', 'c'] := by decide
    have e2 : (dotJoin [['a'], ['b'], ['c']]).length = 5 := by decide
    rw [e1, e2] at h
    exact h
  · exact dotted_symbol_rewrite.2 ['.', 'a', 'b'] 0 (by decide)
      (Or.inl (by decide))
  · exact dotted_symbol_rewrite.2 ['a', 'b', '.'] 0 (by decide)
      (Or.inr (by decide))

/-- Full characterisation of one run of the child-iteration of the mark
loop: some sublist `d` of fresh (previously unmarked) children, without
duplicates, is pushed at the back of the queue with mark `GC_QUEUED`,
recorded in the trace, and afterwards no child of the processed value is
unmarked. -/
theorem mark_children_spec (cs : List Nat) :
    ∀ (m : Nat → GcMark) (q : List Nat) (evs : List (Nat × GcMark)),
    ∃ d : List (Nat × GcMark),
      (mark_children m q evs cs).2.2 = evs ++ d ∧
      (mark_children m q evs cs).2.1 = q ++ d.map Prod.fst ∧
      (∀ e ∈ d, e.2 = GcMark.GC_QUEUED) ∧
      (d.map Prod.fst).Nodup ∧
      (∀ i ∈ d.map Prod.fst, m i = .GC_NOMARK) ∧
      (∀ j, (mark_children m q evs cs).1 j =
        if j ∈ d.map Prod.fst then .GC_QUEUED else m j) ∧
      (∀ c ∈ cs, (mark_children m q evs cs).1 c ≠ .GC_NOMARK) := by
  induction cs with
  | nil =>
      intro m q evs
      exact ⟨[], by simp [mark_children], by simp [mark_children],
        by simp, by simp, by simp, by simp [mark_children], by simp⟩
  | cons c cs ih =>
      intro m q evs
      by_cases hmc : m c = .GC_NOMARK
      · obtain ⟨d', he, hq, hqd, hnd, hnm, hmk, hch⟩ :=
          ih (markSet m c .GC_QUEUED) (q ++ [c]) (evs ++ [(c, GcMark.GC_QUEUED)])
        have hstep :
            mark_children m q evs (c :: cs) =
              mark_children (markSet m c .GC_QUEUED) (q ++ [c])
                (evs ++ [(c, GcMark.GC_QUEUED)]) cs := by
          simp [mark_children, hmc]
        have hc_not : c ∉ d'.map Prod.fst := by
          intro hc
          have := hnm c hc
          simp [markSet] at this
        refine ⟨(c, GcMark.GC_QUEUED) :: d', ?_, ?_, ?_, ?_, ?_, ?_, ?_⟩
        · rw [hstep, he]; simp
        · rw [hstep, hq]; simp
        · intro e he'
          rcases List.mem_cons.mp he' with rfl | hmem
          · rfl
          · exact hqd e hmem
        · simp only [List.map_cons, List.nodup_cons]
          exact ⟨hc_not, hnd⟩
        · intro i hi
          rw [List.map_cons] at hi
          rcases List.mem_cons.mp hi with rfl | hmem
          · exact hmc
          · have h1 := hnm i hmem
            have h2 : i ≠ c := by
              intro hic; rw [hic] at h1; simp [markSet] at h1
            simpa [markSet, h2] using h1
        · intro j
          rw [hstep, hmk j]
          by_cases hj : j = c
          · subst hj
            simp [hc_not, markSet]
          · by_cases hj' : j ∈ d'.map Prod.fst
            · simp [hj', hj]
            · simp [hj', hj, markSet]
        · intro c' hc'
          rcases List.mem_cons.mp hc' with rfl | hmem
          · rw [hstep, hmk c']
            by_cases hcc : c' ∈ d'.map Prod.fst
            · simp [hcc]
            · simp [hcc, markSet]
          · rw [hstep]; exact hch c' hmem
      · obtain ⟨d', he, hq, hqd, hnd, hnm, hmk, hch⟩ := ih m q evs
        have hstep :
            mark_children m q evs (c :: cs) = mark_children m q evs cs := by
          simp [mark_children, hmc]
        refine ⟨d', by rw [hstep]; exact he, by rw [hstep]; exact hq, hqd,
          hnd, hnm, ?_, ?_⟩
        · intro j; rw [hstep]; exact hmk j
        · intro c' hc'
          rcases List.mem_cons.mp hc' with rfl | hmem
          · rw [hstep, hmk c']
            by_cases hcc : c' ∈ d'.map Prod.fst
            · simp [hcc]
            · simp [hcc, hmc]
          · rw [hstep]; exact hch c' hmem

/-- The mark loop only appends to the event trace, and every appended
event carries mark `GC_QUEUED`. -/
theorem mark_loop_evs (ch : Nat → List Nat) :
    ∀ (fuel : Nat) (m : Nat → GcMark) (q : List Nat)
      (evs : List (Nat × GcMark)),
    ∃ d : List (Nat × GcMark),
      (mark_loop ch fuel m q evs).2.2 = evs ++ d ∧
      ∀ e ∈ d, e.2 = GcMark.GC_QUEUED := by
  intro fuel
  induction fuel with
  | zero => intro m q evs; exact ⟨[], by simp [mark_loop], by simp⟩
  | succ fuel ih =>
      intro m q evs
      cases q with
      | nil => exact ⟨[], by simp [mark_loop], by simp⟩
      | cons v q' =>
          have hstep :
              mark_loop ch (fuel + 1) m (v :: q') evs =
                mark_loop ch fuel
                  (mark_children (markSet m v .GC_MARKED) q' evs (ch v)).1
                  (mark_children (markSet m v .GC_MARKED) q' evs (ch v)).2.1
                  (mark_children (markSet m v .GC_MARKED) q' evs (ch v)).2.2 :=
            rfl
          obtain ⟨d1, he1, _, hqd1, _, _, _, _⟩ :=
            mark_children_spec (ch v) (markSet m v .GC_MARKED) q' evs
          obtain ⟨d2, he2, hqd2⟩ := ih
            (mark_children (markSet m v .GC_MARKED) q' evs (ch v)).1
            (mark_children (markSet m v .GC_MARKED) q' evs (ch v)).2.1
            (mark_children (markSet m v .GC_MARKED) q' evs (ch v)).2.2
          refine ⟨d1 ++ d2, ?_, ?_⟩
          · rw [hstep, he2, he1, List.append_assoc]
          · intro e he
            rcases List.mem_append.mp he with h | h
            · exact hqd1 e h
            · exact hqd2 e h

/-- No id is ever pushed twice by the mark loop, provided ids already in
the trace are no longer unmarked. -/
theorem mark_loop_nodup (ch : Nat → List Nat) :
    ∀ (fuel : Nat) (m : Nat → GcMark) (q : List Nat)
      (evs : List (Nat × GcMark)),
      (evs.map Prod.fst).Nodup →
      (∀ i ∈ evs.map Prod.fst, m i ≠ .GC_NOMARK) →
      (((mark_loop ch fuel m q evs).2.2).map Prod.fst).Nodup := by
  intro fuel
  induction fuel with
  | zero => intro m q evs hA _; simpa [mark_loop] using hA
  | succ fuel ih =>
      intro m q evs hA hB
      cases q with
      | nil => simpa [mark_loop] using hA
      | cons v q' =>
          obtain ⟨d1, he1, hq1, _, hnd1, hnm1, hmk1, _⟩ :=
            mark_children_spec (ch v) (markSet m v .GC_MARKED) q' evs
          have hB1 : ∀ i ∈ evs.map Prod.fst,
              markSet m v .GC_MARKED i ≠ .GC_NOMARK := by
            intro i hi
            by_cases hiv : i = v
            · simp [markSet, hiv]
            · simpa [markSet, hiv] using hB i hi
          have hdisj : ∀ i ∈ evs.map Prod.fst, i ∉ d1.map Prod.fst := by
            intro i hi hid
            exact hB1 i hi (hnm1 i hid)
          have hA2 : (((mark_children (markSet m v .GC_MARKED) q' evs
              (ch v)).2.2).map Prod.fst).Nodup := by
            rw [he1, List.map_append]
            exact List.Nodup.append hA hnd1
              (fun i hi hid => hdisj i hi hid)
          have hB2 : ∀ i ∈ ((mark_children (markSet m v .GC_MARKED) q' evs
              (ch v)).2.2).map Prod.fst,
              (mark_children (markSet m v .GC_MARKED) q' evs (ch v)).1 i ≠
                .GC_NOMARK := by
            intro i hi
            rw [hmk1 i]
            by_cases hid : i ∈ d1.map Prod.fst
            · simp [hid]
            · simp only [hid, if_false, ite_false]
              rw [he1, List.map_append, List.mem_append] at hi
              rcases hi with h | h
              · exact hB1 i h
              · exact absurd h hid
          exact ih _ _ _ hA2 hB2

/-- Marked values stay marked through the rest of the loop. -/
theorem mark_loop_marked_stays (ch : Nat → List Nat) :
    ∀ (fuel : Nat) (m : Nat → GcMark) (q : List Nat)
      (evs : List (Nat × GcMark)) (v : Nat),
      m v = .GC_MARKED → (mark_loop ch fuel m q evs).1 v = .GC_MARKED := by
  intro fuel
  induction fuel with
  | zero => intro m q evs v hv; simpa [mark_loop] using hv
  | succ fuel ih =>
      intro m q evs v hv
      cases q with
      | nil => simpa [mark_loop] using hv
      | cons u q' =>
          obtain ⟨d1, _, _, _, _, hnm1, hmk1, _⟩ :=
            mark_children_spec (ch u) (markSet m u .GC_MARKED) q' evs
          have h1 : markSet m u .GC_MARKED v = .GC_MARKED := by
            by_cases hvu : v = u <;> simp [markSet, hvu, hv]
          have h2 : v ∉ d1.map Prod.fst := by
            intro hid
            have := hnm1 v hid
            rw [h1] at this
            exact absurd this (by decide)
          have h3 : (mark_children (markSet m u .GC_MARKED) q' evs
              (ch u)).1 v = .GC_MARKED := by
            rw [hmk1 v]
            simp [h2, h1]
          exact ih _ _ _ v h3

/-- When the loop drains its queue, every id that was in the queue ends up
marked. -/
theorem mark_loop_queue_marked (ch : Nat → List Nat) :
    ∀ (fuel : Nat) (m : Nat → GcMark) (q : List Nat)
      (evs : List (Nat × GcMark)),
      (mark_loop ch fuel m q evs).2.1 = [] →
      ∀ v ∈ q, (mark_loop ch fuel m q evs).1 v = .GC_MARKED := by
  intro fuel
  induction fuel with
  | zero =>
      intro m q evs hdrain v hv
      simp only [mark_loop] at hdrain
      rw [hdrain] at hv
      simp at hv
  | succ fuel ih =>
      intro m q evs hdrain v hv
      cases q with
      | nil => simp at hv
      | cons u q' =>
          obtain ⟨d1, _, hq1, _, _, hnm1, hmk1, _⟩ :=
            mark_children_spec (ch u) (markSet m u .GC_MARKED) q' evs
          rcases List.mem_cons.mp hv with rfl | hv'
          · have h1 : markSet m v .GC_MARKED v = .GC_MARKED := by
              simp [markSet]
            have h2 : v ∉ d1.map Prod.fst := by
              intro hid
              have := hnm1 v hid
              rw [h1] at this
              exact absurd this (by decide)
            have h3 : (mark_children (markSet m v .GC_MARKED) q' evs
                (ch v)).1 v = .GC_MARKED := by
              rw [hmk1 v]; simp [h2, h1]
            exact mark_loop_marked_stays ch fuel _ _ _ v h3
          · have hv2 : v ∈ (mark_children (markSet m u .GC_MARKED) q' evs
                (ch u)).2.1 := by
              rw [hq1]
              exact List.mem_append_left _ hv'
            exact ih _ _ _ hdrain v hv2

/-- Invariant: ids marked `GC_QUEUED` are exactly queue residents, so after
the loop a queued id must still be in the remaining queue. -/
theorem mark_loop_queued_in_queue (ch : Nat → List Nat) :
    ∀ (fuel : Nat) (m : Nat → GcMark) (q : List Nat)
      (evs : List (Nat × GcMark)),
      (∀ v, m v = .GC_QUEUED → v ∈ q) →
      ∀ v, (mark_loop ch fuel m q evs).1 v = .GC_QUEUED →
        v ∈ (mark_loop ch fuel m q evs).2.1 := by
  intro fuel
  induction fuel with
  | zero =>
      intro m q evs hK v hv
      simp only [mark_loop] at hv ⊢
      exact hK v hv
  | succ fuel ih =>
      intro m q evs hK v hv
      cases q with
      | nil =>
          simp only [mark_loop] at hv ⊢
          exact hK v hv
      | cons u q' =>
          obtain ⟨d1, _, hq1, _, _, hnm1, hmk1, _⟩ :=
            mark_children_spec (ch u) (markSet m u .GC_MARKED) q' evs
          have hK2 : ∀ w, (mark_children (markSet m u .GC_MARKED) q' evs
              (ch u)).1 w = .GC_QUEUED →
              w ∈ (mark_children (markSet m u .GC_MARKED) q' evs
                (ch u)).2.1 := by
            intro w hw
            rw [hmk1 w] at hw
            rw [hq1]
            by_cases hwd : w ∈ d1.map Prod.fst
            · exact List.mem_append_right _ hwd
            · rw [if_neg hwd] at hw
              have hwu : ¬ (w = u) := by
                intro hwu
                rw [hwu] at hw
                simp [markSet] at hw
              rw [markSet] at hw
              simp only [hwu, if_false, ite_false] at hw
              have := hK w hw
              rcases List.mem_cons.mp this with h | h
              · exact absurd h hwu
              · exact List.mem_append_left _ h
          exact ih _ _ _ hK2 v hv

/-- Invariant: the children of a marked value are never unmarked. -/
theorem mark_loop_children (ch : Nat → List Nat) :
    ∀ (fuel : Nat) (m : Nat → GcMark) (q : List Nat)
      (evs : List (Nat × GcMark)),
      (∀ i, m i = .GC_MARKED → ∀ c ∈ ch i, m c ≠ .GC_NOMARK) →
      ∀ i, (mark_loop ch fuel m q evs).1 i = .GC_MARKED →
        ∀ c ∈ ch i, (mark_loop ch fuel m q evs).1 c ≠ .GC_NOMARK := by
  intro fuel
  induction fuel with
  | zero =>
      intro m q evs hJ i hi c hc
      simp only [mark_loop] at hi ⊢
      exact hJ i hi c hc
  | succ fuel ih =>
      intro m q evs hJ i hi c hc
      cases q with
      | nil =>
          simp only [mark_loop] at hi ⊢
          exact hJ i hi c hc
      | cons u q' =>
          obtain ⟨d1, _, _, _, _, hnm1, hmk1, hch1⟩ :=
            mark_children_spec (ch u) (markSet m u .GC_MARKED) q' evs
          have hJ2 : ∀ j, (mark_children (markSet m u .GC_MARKED) q' evs
              (ch u)).1 j = .GC_MARKED →
              ∀ c' ∈ ch j, (mark_children (markSet m u .GC_MARKED) q' evs
                (ch u)).1 c' ≠ .GC_NOMARK := by
            intro j hj c' hc'
            by_cases hju : j = u
            · subst hju
              exact hch1 c' hc'
            · rw [hmk1 j] at hj
              have hjd : j ∉ d1.map Prod.fst := by
                intro hjd
                rw [if_pos hjd] at hj
                exact absurd hj (by decide)
              rw [if_neg hjd] at hj
              rw [markSet] at hj
              simp only [hju, if_false, ite_false] at hj
              have hmc' := hJ j hj c' hc'
              rw [hmk1 c']
              by_cases hcd : c' ∈ d1.map Prod.fst
              · simp [hcd]
              · rw [if_neg hcd]
                rw [markSet]
                by_cases hcu : c' = u <;> simp [hcu, hmc']
          exact ih _ _ _ hJ2 i hi c hc

/-- After a drained mark run from an all-unmarked state, every value
reachable from the root is marked. -/
theorem lisp_mark_reachable_marked (ch : Nat → List Nat) (fuel : Nat)
    (m : Nat → GcMark) (root : Nat)
    (hm : ∀ i, m i = .GC_NOMARK)
    (hdrain : (lisp_mark ch fuel m root).2.1 = []) :
    ∀ i, Reach ch root i → (lisp_mark ch fuel m root).1 i = .GC_MARKED := by
  intro i hr
  induction hr with
  | refl =>
      exact mark_loop_queue_marked ch fuel m [root] [(root, m root)]
        hdrain root (by simp)
  | @step j c hr' hc ih =>
      have hJ0 : ∀ i, m i = .GC_MARKED → ∀ c' ∈ ch i, m c' ≠ .GC_NOMARK := by
        intro i hi
        rw [hm i] at hi
        exact absurd hi (by decide)
      have hnz := mark_loop_children ch fuel m [root] [(root, m root)]
        hJ0 j ih c hc
      have hK0 : ∀ v, m v = .GC_QUEUED → v ∈ [root] := by
        intro v hv
        rw [hm v] at hv
        exact absurd hv (by decide)
      cases hMc : (lisp_mark ch fuel m root).1 c with
      | GC_NOMARK => exact absurd hMc hnz
      | GC_QUEUED =>
          exfalso
          have hdrain' :
              (mark_loop ch fuel m [root] [(root, m root)]).2.1 = [] := hdrain
          have hmem := mark_loop_queued_in_queue ch fuel m [root]
            [(root, m root)] hK0 c hMc
          rw [hdrain'] at hmem
          simp at hmem
      | GC_MARKED => rfl

/-- Full characterisation of the sweep walk on a duplicate-free object
list: the survivors are `curr` followed by the marked part of the rest,
every survivor's mark is reset to `GC_NOMARK`, and no other mark changes. -/
theorem sweep_from_spec :
    ∀ (rest : List Nat) (m : Nat → GcMark) (curr : Nat),
      curr ∉ rest → rest.Nodup →
      (sweep_from m curr rest).1 =
        curr :: rest.filter (fun i => m i = .GC_MARKED) ∧
      (∀ i, (sweep_from m curr rest).2 i =
        if i ∈ (sweep_from m curr rest).1 then .GC_NOMARK else m i) := by
  intro rest
  induction rest with
  | nil =>
      intro m curr _ _
      refine ⟨by simp [sweep_from], ?_⟩
      intro i
      by_cases hic : i = curr <;> simp [sweep_from, markSet, hic]
  | cons nxt rest ih =>
      intro m curr hcur hnd
      have hcur1 : curr ∉ rest := fun h => hcur (by simp [h])
      have hcn : ¬ (curr = nxt) := fun h => hcur (by simp [h])
      have hnxt : nxt ∉ rest := (List.nodup_cons.mp hnd).1
      have hnd' : rest.Nodup := (List.nodup_cons.mp hnd).2
      by_cases hmk : m nxt ≠ .GC_MARKED
      · have hstep : sweep_from m curr (nxt :: rest) = sweep_from m curr rest := by
          simp [sweep_from, hmk]
        obtain ⟨h1, h2⟩ := ih m curr hcur1 hnd'
        refine ⟨?_, ?_⟩
        · rw [hstep, h1]
          have : (decide (m nxt = .GC_MARKED)) = false := by
            simpa using hmk
          simp [List.filter_cons, this]
        · intro i
          rw [hstep, h2 i]
      · push_neg at hmk
        have hstep :
            sweep_from m curr (nxt :: rest) =
              ((curr :: (sweep_from (markSet m curr .GC_NOMARK) nxt rest).1),
               (sweep_from (markSet m curr .GC_NOMARK) nxt rest).2) := by
          simp [sweep_from, hmk]
        obtain ⟨h1, h2⟩ := ih (markSet m curr .GC_NOMARK) nxt hnxt hnd'
        have hfilter :
            rest.filter (fun i => markSet m curr .GC_NOMARK i = .GC_MARKED) =
              rest.filter (fun i => m i = .GC_MARKED) := by
          refine List.filter_congr ?_
          intro x hx
          have hxc : ¬ (x = curr) := fun h => hcur1 (by rw [← h]; exact hx)
          simp [markSet, hxc]
        refine ⟨?_, ?_⟩
        · rw [hstep]
          simp only [h1, hfilter]
          simp [List.filter_cons, hmk]
        · intro i
          rw [hstep]
          show (sweep_from (markSet m curr .GC_NOMARK) nxt rest).2 i =
            if i ∈ curr :: (sweep_from (markSet m curr .GC_NOMARK) nxt
                rest).1 then GcMark.GC_NOMARK else m i
          rw [h2 i]
          by_cases hic : i = curr
          · have hnotin : i ∉ (sweep_from (markSet m curr .GC_NOMARK) nxt
                rest).1 := by
              rw [h1]
              intro hmem
              rcases List.mem_cons.mp hmem with h | h
              · exact hcn (by rw [← hic]; exact h)
              · refine hcur1 ?_
                have := List.mem_of_mem_filter h
                rwa [hic] at this
            rw [if_neg hnotin, if_pos (by simp [hic])]
            simp [markSet, hic]
          · by_cases hin : i ∈ (sweep_from (markSet m curr .GC_NOMARK) nxt
                rest).1
            · rw [if_pos hin, if_pos (by simp [hin])]
            · rw [if_neg hin, if_neg (by simp [List.mem_cons, hic, hin])]
              simp [markSet, hic]

/-- C5 counterexample: on a one-object heap the root is enqueued with its
mark still `GC_NOMARK` — the mark phase never sets a root's mark to
`GC_QUEUED` at enqueue time, contrary to the claimed algorithm. -/
theorem mark_root_enqueued_unmarked :
    (lisp_mark (fun _ => []) 3 (fun _ => GcMark.GC_NOMARK) 0).2.2 =
      [(0, GcMark.GC_NOMARK)] ∧
    (0, GcMark.GC_QUEUED) ∉
      (lisp_mark (fun _ => []) 3 (fun _ => GcMark.GC_NOMARK) 0).2.2 := by
  refine ⟨by decide, by decide⟩

/-- C5 amended: the root is enqueued with its mark left unchanged (it is
set to `GC_MARKED` only when popped); every subsequently enqueued value is
a child whose mark was `GC_NOMARK` and is set to `GC_QUEUED` at the push;
and no value is ever enqueued twice, cyclic graphs included. -/
theorem mark_trace_spec (ch : Nat → List Nat) (fuel : Nat)
    (m : Nat → GcMark) (root : Nat) :
    ((lisp_mark ch fuel m root).2.2).head? = some (root, m root) ∧
    (∀ e ∈ ((lisp_mark ch fuel m root).2.2).tail,
      e.2 = GcMark.GC_QUEUED) ∧
    (((lisp_mark ch fuel m root).2.2).map Prod.fst).Nodup := by
  obtain ⟨d, hd, hdq⟩ := mark_loop_evs ch fuel m [root] [(root, m root)]
  have hd' : (lisp_mark ch fuel m root).2.2 = (root, m root) :: d := by
    rw [lisp_mark, hd]
    simp
  refine ⟨by rw [hd']; rfl, ?_, ?_⟩
  · intro e he
    rw [hd'] at he
    exact hdq e he
  · cases fuel with
    | zero =>
        show ((mark_loop ch 0 m [root] [(root, m root)]).2.2).map
          Prod.fst |>.Nodup
        simp [mark_loop]
    | succ fuel =>
        show ((mark_loop ch (fuel + 1) m [root] [(root, m root)]).2.2).map
          Prod.fst |>.Nodup
        obtain ⟨d1, he1, _, _, hnd1, hnm1, hmk1, _⟩ :=
          mark_children_spec (ch root) (markSet m root .GC_MARKED) []
            [(root, m root)]
        have hroot_not : root ∉ d1.map Prod.fst := by
          intro hid
          have := hnm1 root hid
          simp [markSet] at this
        have hA : (((mark_children (markSet m root .GC_MARKED) []
            [(root, m root)] (ch root)).2.2).map Prod.fst).Nodup := by
          rw [he1, List.map_append]
          refine List.Nodup.append (by simp) hnd1 ?_
          intro a ha hb
          simp only [List.map_cons, List.map_nil, List.mem_singleton] at ha
          rw [ha] at hb
          exact hroot_not hb
        have hB : ∀ i ∈ ((mark_children (markSet m root .GC_MARKED) []
            [(root, m root)] (ch root)).2.2).map Prod.fst,
            (mark_children (markSet m root .GC_MARKED) []
              [(root, m root)] (ch root)).1 i ≠ .GC_NOMARK := by
          intro i hi
          rw [hmk1 i]
          by_cases hid : i ∈ d1.map Prod.fst
          · simp [hid]
          · rw [if_neg hid]
            rw [he1, List.map_append, List.mem_append] at hi
            rcases hi with h | h
            · simp only [List.map_cons, List.map_nil,
                List.mem_singleton] at h
              rw [h]
              simp [markSet]
            · exact absurd h hid
        exact mark_loop_nodup ch fuel _ _ _ hA hB

/-- C6: after a drained `mark(root)` from an all-unmarked state followed by
`sweep()` over an object list headed by the nil singleton, every value
reachable from the root survives on the list, every survivor's mark is
reset to unmarked, every non-nil object not marked is gone from the list,
and nil survives. -/
theorem mark_sweep_cycle (ch : Nat → List Nat) (fuel : Nat)
    (m : Nat → GcMark) (root nilId : Nat) (t : List Nat)
    (hm : ∀ i, m i = .GC_NOMARK)
    (hdrain : (lisp_mark ch fuel m root).2.1 = [])
    (hclosed : ∀ i, Reach ch root i → i ∈ nilId :: t)
    (hnd : (nilId :: t).Nodup) :
    (∀ i, Reach ch root i →
      i ∈ (lisp_sweep (lisp_mark ch fuel m root).1 nilId t).1) ∧
    (∀ i ∈ (lisp_sweep (lisp_mark ch fuel m root).1 nilId t).1,
      (lisp_sweep (lisp_mark ch fuel m root).1 nilId t).2 i = .GC_NOMARK) ∧
    (∀ i ∈ t, (lisp_mark ch fuel m root).1 i ≠ .GC_MARKED →
      i ∉ (lisp_sweep (lisp_mark ch fuel m root).1 nilId t).1) ∧
    nilId ∈ (lisp_sweep (lisp_mark ch fuel m root).1 nilId t).1 := by
  have hnd1 : nilId ∉ t := (List.nodup_cons.mp hnd).1
  have hnd2 : t.Nodup := (List.nodup_cons.mp hnd).2
  obtain ⟨hlist, hmarks⟩ :=
    sweep_from_spec t (lisp_mark ch fuel m root).1 nilId hnd1 hnd2
  have hsw : lisp_sweep (lisp_mark ch fuel m root).1 nilId t =
      sweep_from (lisp_mark ch fuel m root).1 nilId t := rfl
  refine ⟨?_, ?_, ?_, ?_⟩
  · intro i hr
    have hMi := lisp_mark_reachable_marked ch fuel m root hm hdrain i hr
    rw [hsw, hlist]
    rcases List.mem_cons.mp (hclosed i hr) with rfl | hit
    · simp
    · refine List.mem_cons_of_mem _ ?_
      exact List.mem_filter.mpr ⟨hit, by simp [hMi]⟩
  · intro i hi
    rw [hsw] at hi ⊢
    rw [hmarks i, if_pos hi]
  · intro i hit hnm hmem
    rw [hsw, hlist] at hmem
    rcases List.mem_cons.mp hmem with rfl | hmem'
    · exact hnd1 hit
    · have := List.of_mem_filter hmem'
      simp at this
      exact hnm this
  · rw [hsw, hlist]
    simp

/-- C6 witness: nil is object 0, the root object 1 reaches 2, and object 3
is garbage; after mark-then-sweep the list is exactly nil, 1 and 2, all
unmarked, and 3 is gone. -/
theorem mark_sweep_cycle_witness :
    2 ∈ (lisp_sweep (lisp_mark gcW_ch 9 gcW_m 1).1 0 [1, 2, 3]).1 ∧
    (lisp_sweep (lisp_mark gcW_ch 9 gcW_m 1).1 0 [1, 2, 3]).2 2 =
      .GC_NOMARK ∧
    3 ∉ (lisp_sweep (lisp_mark gcW_ch 9 gcW_m 1).1 0 [1, 2, 3]).1 ∧
    0 ∈ (lisp_sweep (lisp_mark gcW_ch 9 gcW_m 1).1 0 [1, 2, 3]).1 := by
  have hclosed : ∀ i, Reach gcW_ch 1 i → i ∈ (0 :: [1, 2, 3] : List Nat) := by
    intro i h
    induction h with
    | refl => simp
    | @step j c h1 h2 ih =>
        have hj : j = 0 ∨ j = 1 ∨ j = 2 ∨ j = 3 := by simpa using ih
        rcases hj with rfl | rfl | rfl | rfl <;>
          simp [gcW_ch] at h2 <;> simp [h2]
  have h := mark_sweep_cycle gcW_ch 9 gcW_m 1 0 [1, 2, 3]
    (fun i => rfl) (by decide) hclosed (by decide)
  refine ⟨?_, ?_, ?_, ?_⟩
  · exact h.1 2 (Reach.step Reach.refl (by simp [gcW_ch]))
  · exact h.2.1 2 (h.1 2 (Reach.step Reach.refl (by simp [gcW_ch])))
  · exact h.2.2.1 3 (by simp) (by decide)
  · exact h.2.2.2
